import Mathlib

/-!
Verification of the LaTeX normalization pipeline of `python-scripte/suchen_ersetzen.py`.

Documents are modelled as `List Char` (the Python `str` the script manipulates).
Each transformation rule of `LatexProcessor` is embedded as a pure function on
`List Char`; `re.sub` is modelled by a left-to-right scan (`subScan`) driven by a
matcher that is hand-translated from the corresponding compiled pattern, with the
same leftmost-match, lazy-quantifier and non-overlapping-replacement behaviour.
Recursive scanners use an explicit fuel argument (bounded by the string length)
so that every definition reduces in the kernel.
-/

namespace SE

/-- Shorthand: the character list underlying a string literal. -/
def lc (s : String) : List Char := s.data

/-- Python whitespace test (`str.strip`, regex class for blanks), restricted to the
whitespace characters that can occur in the ASCII/Latin LaTeX sources the script
processes. -/
def pyIsSpace (c : Char) : Bool :=
  c = ' ' || c = '\t' || c = '\n' || c = '\r' || c = '\x0b' || c = '\x0c'

/-- The line-break characters recognised by Python `str.splitlines`
(restricted to the common set; `\r\n` is treated as a single break by
`splitlines` below). -/
def isLineBreakChar (c : Char) : Bool :=
  c = '\n' || c = '\r' || c = '\x0b' || c = '\x0c' ||
  c = '\x1c' || c = '\x1d' || c = '\x1e' || c = '\x85' ||
  c = '\u2028' || c = '\u2029'

/-- Python `str.splitlines`: split at line breaks, treating `\r\n` as one break
and producing no trailing empty line for a trailing break. -/
def splitlines : List Char → List (List Char)
  | [] => []
  | [c] => bif isLineBreakChar c then [[]] else [[c]]
  | c :: c2 :: rest =>
    bif c == '\r' && c2 == '\n' then [] :: splitlines rest
    else bif isLineBreakChar c then [] :: splitlines (c2 :: rest)
    else
      match splitlines (c2 :: rest) with
      | [] => [[c]]
      | l :: ls => (c :: l) :: ls

/-- Python `"\n".join`. -/
def joinLines : List (List Char) → List Char
  | [] => []
  | [l] => l
  | l :: l2 :: ls => l ++ '\n' :: joinLines (l2 :: ls)

/-- Python `str.lstrip()`. -/
def pyLstrip (l : List Char) : List Char := l.dropWhile pyIsSpace

/-- Python `str.rstrip()`. -/
def pyRstrip (l : List Char) : List Char := (l.reverse.dropWhile pyIsSpace).reverse

/-- Python `str.strip()`. -/
def pyStrip (l : List Char) : List Char := pyRstrip (pyLstrip l)

/-- Split at the first occurrence of a single character:
`splitAtFirst ch s = some (before, after)` with `s = before ++ ch :: after`
and `ch ∉ before`. -/
def splitAtFirst (ch : Char) : List Char → Option (List Char × List Char)
  | [] => none
  | c :: rest =>
    if c = ch then some ([], rest)
    else (splitAtFirst ch rest).map (fun p => (c :: p.1, p.2))

/-- Split at the first occurrence of a substring (Python `str.find` /
the way a lazy `(.*?)lit` group matches):
`splitAtFirstSub pat s = some (before, after)` with `s = before ++ pat ++ after`
and no earlier occurrence. -/
def splitAtFirstSub (pat : List Char) : List Char → Option (List Char × List Char)
  | [] => bif pat.isPrefixOf ([] : List Char) then some ([], []) else none
  | c :: rest =>
    bif pat.isPrefixOf (c :: rest) then some ([], (c :: rest).drop pat.length)
    else (splitAtFirstSub pat rest).map (fun p => (c :: p.1, p.2))

/-- Python `pat in s` (substring containment). -/
def containsSub (pat s : List Char) : Bool := (splitAtFirstSub pat s).isSome

/-- Python `str.count` (non-overlapping occurrences, left to right) with fuel. -/
def countOccurFuel (pat : List Char) : Nat → List Char → Nat
  | 0, _ => 0
  | fuel + 1, s =>
    match splitAtFirstSub pat s with
    | none => 0
    | some (_, after) => 1 + countOccurFuel pat fuel after

/-- Python `str.count` for a nonempty pattern. -/
def countOccur (pat s : List Char) : Nat := countOccurFuel pat (s.length + 1) s

/-- Python `str.replace` (all non-overlapping occurrences, left to right,
the replacement text is not rescanned) with fuel. -/
def replaceAllFuel (pat repl : List Char) : Nat → List Char → List Char
  | 0, s => s
  | fuel + 1, s =>
    match splitAtFirstSub pat s with
    | none => s
    | some (b, a) => b ++ repl ++ replaceAllFuel pat repl fuel a

/-- Python `str.replace` for a nonempty pattern. -/
def replaceAll (pat repl s : List Char) : List Char :=
  replaceAllFuel pat repl (s.length + 1) s

/-- One `re.sub` sweep: at each position try the matcher (which returns the
length of the match and its replacement); on success emit the replacement and
continue after the match, otherwise keep the character and move on.  Fueled so
that the kernel can evaluate it; every matcher used here consumes at least one
character. -/
def subScanFuel (m : List Char → Option (Nat × List Char)) : Nat → List Char → List Char
  | _, [] => []
  | 0, s => s
  | fuel + 1, c :: rest =>
    match m (c :: rest) with
    | none => c :: subScanFuel m fuel rest
    | some (n, repl) =>
      if n = 0 then c :: subScanFuel m fuel rest
      else repl ++ subScanFuel m fuel (rest.drop (n - 1))

/-- `re.sub` driven by matcher `m`. -/
def subScan (m : List Char → Option (Nat × List Char)) (s : List Char) : List Char :=
  subScanFuel m s.length s

/-- The matcher matches at no position of `s` (the document contains no
instance of the pattern). -/
def noMatchIn (m : List Char → Option (Nat × List Char)) (s : List Char) : Bool :=
  s.tails.all (fun t => (m t).isNone)

/-- `'\x7b'`, the opening curly brace. -/
def braceOpen : Char := Char.ofNat 123

/-- `'\x7d'`, the closing curly brace. -/
def braceClose : Char := Char.ofNat 125

/-- The apostrophe character. -/
def apos : Char := Char.ofNat 39

/- ### Rule 1: `LatexProcessor._add_or_replace_comment` (timestamp banner) -/

/-- The fixed marker prefix of a banner line. -/
def bannerMarker : List Char := lc "% ju"

/-- `f"% ju {self.config.timestamp} {filename}"`. -/
def makeBanner (ts fn : List Char) : List Char := lc "% ju " ++ ts ++ ' ' :: fn

/-- `line.strip().startswith("% ju")`. -/
def isOldBanner (l : List Char) : Bool := bannerMarker.isPrefixOf (pyStrip l)

/-- `LatexProcessor._add_or_replace_comment`: drop every line whose stripped form
starts with the marker, then prepend the fresh banner and rejoin with `"\n"`. -/
def add_or_replace_comment (ts fn content : List Char) : List Char :=
  joinLines (makeBanner ts fn :: (splitlines content).filter (fun l => !isOldBanner l))

/-- Number of lines of a document that begin with the banner marker. -/
def countBannerLines (d : List Char) : Nat :=
  (splitlines d).countP (fun l => bannerMarker.isPrefixOf l)

/-- The last character of a document, if any. -/
def lastChar (l : List Char) : Option Char := l.reverse.head?

/- ### Rule 2: `LatexProcessor._update_figure_environment` / `_repl_figure` -/

def figOpen : List Char := lc "\\begin\x7bfigure\x7d"
def centeringTok : List Char := lc "\\centering"
def igTok : List Char := lc "\\includegraphics"
def figTail : List Char := lc "\n%\\floatnotes\x7b\x7d\n%\\label\x7bfig:\x7d"
def widthKey : List Char := lc "width="
def heightKey : List Char := lc "height="
def defaultImageWidth : List Char := lc "0.8"
def defaultImageHeight : List Char := lc "0.6"

/-- `LatexProcessor._create_image_options`. -/
def create_image_options (w h : List Char) : List Char :=
  lc "[width=" ++ w ++ lc "\\textwidth,height=" ++ h ++ lc "\\textheight,keepaspectratio]"

/-- `LatexProcessor._repl_figure`: build the replacement for one matched figure
block from the captured groups (`before`, optional `options` incl. brackets,
`path` incl. braces). -/
def repl_figure (w h before : List Char) (options : Option (List Char))
    (path : List Char) : List Char :=
  let opts :=
    match options with
    | none => create_image_options w h
    | some o =>
      bif !containsSub widthKey o && !containsSub heightKey o then
        o.dropLast ++ ',' :: (create_image_options w h).drop 1
      else o
  before ++ igTok ++ opts ++ path ++ figTail

/-- The lazy group `\{.*?\}` (DOTALL): a brace-open, the shortest run up to the
next brace-close.  Returns the matched text (braces included) and the rest. -/
def matchPath : List Char → Option (List Char × List Char)
  | [] => none
  | c :: rest =>
    bif c == braceOpen then
      (splitAtFirst braceClose rest).map (fun p => (c :: p.1 ++ [braceClose], p.2))
    else none

/-- Backtracking search for the end of the optional `\[.*?\]` group of the
figure pattern: try successive `]` positions (lazy) until the following
`\{.*?\}` group can match. -/
def findOptEndFuel : Nat → List Char → Option (List Char × List Char)
  | 0, _ => none
  | fuel + 1, s =>
    match splitAtFirst ']' s with
    | none => none
    | some (a, r) =>
      bif (matchPath r).isSome then some (a, r)
      else (findOptEndFuel fuel r).map (fun p => (a ++ ']' :: p.1, p.2))

def findOptEnd (s : List Char) : Option (List Char × List Char) :=
  findOptEndFuel (s.length + 1) s

/-- Matcher for `_figure_pattern =
`(\\begin{figure}\s*\\centering\s*)(\\includegraphics)(\[.*?\])?(\{.*?\})`
(re.DOTALL), applied at the start of `s`; returns matched length and the
replacement produced by `_repl_figure`. -/
def matchFigure (w h : List Char) (s : List Char) : Option (Nat × List Char) :=
  bif figOpen.isPrefixOf s then
    let s1 := s.drop figOpen.length
    let ws1 := s1.takeWhile pyIsSpace
    let s2 := s1.dropWhile pyIsSpace
    bif centeringTok.isPrefixOf s2 then
      let s3 := s2.drop centeringTok.length
      let ws2 := s3.takeWhile pyIsSpace
      let s4 := s3.dropWhile pyIsSpace
      bif igTok.isPrefixOf s4 then
        let s5 := s4.drop igTok.length
        let before := figOpen ++ ws1 ++ centeringTok ++ ws2
        let base := before.length + igTok.length
        match s5 with
        | c :: s6 =>
          bif c == '[' then
            match findOptEnd s6 with
            | some (inner, r) =>
              match matchPath r with
              | some (path, _) =>
                let opts := '[' :: inner ++ [']']
                some (base + opts.length + path.length,
                  repl_figure w h before (some opts) path)
              | none => none
            | none => none
          else
            match matchPath s5 with
            | some (path, _) => some (base + path.length, repl_figure w h before none path)
            | none => none
        | [] => none
      else none
    else none
  else none

/-- `LatexProcessor._update_figure_environment`. -/
def update_figure_environment (w h content : List Char) : List Char :=
  subScan (matchFigure w h) content

/- ### Rule 3: `LatexProcessor._apply_simple_replacements` -/

/-- `self.simple_replacements`, in insertion order. -/
def simple_replacements : List (List Char × List Char) :=
  [(lc ",height=\\textheight", lc ""),
   (lc "``", lc ">>"),
   ([apos, apos], lc "<<"),
   (lc "\\tightlist", lc ""),
   (lc "\\midrule", lc "\\midrule[\\heavyrulewidth]\n")]

/-- `LatexProcessor._apply_simple_replacements`. -/
def apply_simple_replacements (content : List Char) : List Char :=
  simple_replacements.foldl (fun c pr => replaceAll pr.1 pr.2 c) content

/- ### Rule 4: `LatexProcessor._replace_german_chars_in_labels` -/

def labelOpen : List Char := lc "\\label\x7b"

/-- `Config.create_default`'s `label_replacements`, in insertion order. -/
def label_replacements : List (List Char × List Char) :=
  [(lc "uxfc", lc "ue"), (lc "uxf6", lc "oe"), (lc "uxe4", lc "ae"), (lc "uxdf", lc "ss")]

/-- The loop body of the label `replacer`: apply each table entry with
`str.replace`. -/
def applyLabelReplacements (reps : List (List Char × List Char))
    (content : List Char) : List Char :=
  reps.foldl (fun acc pr => replaceAll pr.1 pr.2 acc) content

/-- Matcher for `_label_pattern = `\\label{([^}]*?)}``, with the `replacer`
replacement. -/
def matchLabel (reps : List (List Char × List Char)) (s : List Char) :
    Option (Nat × List Char) :=
  bif labelOpen.isPrefixOf s then
    match splitAtFirst braceClose (s.drop labelOpen.length) with
    | none => none
    | some (content, _) =>
      some (labelOpen.length + content.length + 1,
        labelOpen ++ applyLabelReplacements reps content ++ [braceClose])
  else none

/-- `LatexProcessor._replace_german_chars_in_labels`. -/
def replace_german_chars_in_labels (reps : List (List Char × List Char))
    (content : List Char) : List Char :=
  subScan (matchLabel reps) content

/- ### Rule 5: `LatexProcessor._convert_code_blocks` -/

def codeOpen : List Char := lc "\\passthrough\x7b\\lstinline!"
def verbTok : List Char := lc "\\verb|"

/-- Matcher for `_code_pattern = `\\passthrough{\\lstinline!(.*?)!}`` (no
DOTALL: the lazy payload may not span a newline), replacement `\verb|\1|`. -/
def matchCode (s : List Char) : Option (Nat × List Char) :=
  bif codeOpen.isPrefixOf s then
    match splitAtFirstSub (lc "!\x7d") (s.drop codeOpen.length) with
    | none => none
    | some (content, _) =>
      bif content.contains '\n' then none
      else some (codeOpen.length + content.length + 2, verbTok ++ content ++ ['|'])
  else none

/-- `LatexProcessor._convert_code_blocks`. -/
def convert_code_blocks (content : List Char) : List Char := subScan matchCode content

/- ### Rule 6: `LatexProcessor._convert_longtable_to_table` -/

def ltOpen : List Char := lc "\\begin\x7blongtable\x7d[]\x7b@\x7b\x7d"
def ltColEnd : List Char := lc "@\x7b\x7d\x7d"
def ltEnd : List Char := lc "\\end\x7blongtable\x7d"

/-- `self.table_patterns` (all three patterns are literal strings), in
insertion order: toprule, endhead, bottomrule. -/
def table_patterns : List (List Char) :=
  [lc "\\toprule\\noalign\x7b\x7d\n",
   lc "\\noalign\x7b\x7d\n\\endhead\n",
   lc "\\bottomrule\\noalign\x7b\x7d\n\\endlastfoot\n"]

/-- `LatexProcessor._clean_table_content`. -/
def clean_table_content (content : List Char) : List Char :=
  table_patterns.foldl (fun c pat => replaceAll pat [] c) content

/-- `LatexProcessor._create_table_environment`. -/
def create_table_environment (col_defs content : List Char) : List Char :=
  lc "\\begin\x7btable\x7d[ht]\n  %\\caption\x7b\x7d\n  %\\label\x7btab:my-table\x7d\n  \\begin\x7btabular\x7d\x7b@\x7b\x7d"
    ++ col_defs
    ++ lc "@\x7b\x7d\x7d\n  \\toprule\n"
    ++ content
    ++ lc "  \\bottomrule\n  \\end\x7btabular\x7d%\n\\end\x7btable\x7d"

/-- Matcher for `_longtable_pattern =
`\\begin{longtable}\[\]{@{}(.*?)@{}}(.*?)\\end{longtable}`` (re.DOTALL).
The two lazy groups resolve to the first `@{}}` occurrence and the first
`\end{longtable}` occurrence after it (later candidates can never succeed when
the first fails, so no further backtracking arises). -/
def matchLongtable (s : List Char) : Option (Nat × List Char) :=
  bif ltOpen.isPrefixOf s then
    match splitAtFirstSub ltColEnd (s.drop ltOpen.length) with
    | none => none
    | some (colDefs, r1) =>
      match splitAtFirstSub ltEnd r1 with
      | none => none
      | some (body, _) =>
        some (ltOpen.length + colDefs.length + ltColEnd.length + body.length + ltEnd.length,
          create_table_environment colDefs (clean_table_content body))
  else none

/-- `LatexProcessor._convert_longtable_to_table`. -/
def convert_longtable_to_table (content : List Char) : List Char :=
  subScan matchLongtable content

/- ### Rule 7: `LatexProcessor._adjust_table_format` -/

def atOpen : List Char := lc "\\begin\x7btabular\x7d\x7b@\x7b\x7d"
def raggedOpenTok : List Char := lc "\x7b\\raggedright"
def tabEndTok : List Char := lc "\\end\x7btabular\x7d"
def topruleTok : List Char := lc "\\toprule"
def bottomruleTok : List Char := lc "\\bottomrule"
def extractFailMsg : List Char := lc "Inhalt konnte nicht extrahiert werden."
def mpOpen : List Char := lc "\\begin\x7bminipage\x7d["
def mpEndTok : List Char := lc "\\end\x7bminipage\x7d"

/-- The literal after the `}` in `_minipage_pattern`'s first alternative.  In
the raw pattern string `...}\raggedright|...` the sequence `\r` is a regex
escape for the carriage-return character, so the compiled pattern requires a
CR followed by `aggedright`, not a backslash. -/
def raggedrightTok : List Char := '\r' :: lc "aggedright"
def rowEndTok : List Char := lc "\\\\"

/-- Lazy `.*?close` followed by a literal, without DOTALL (the lazy run may not
contain a newline): try successive `close` positions until `lit` follows,
returning the total consumed length. -/
def lazyCloseThenLitFuel (close : Char) (lit : List Char) : Nat → List Char → Option Nat
  | 0, _ => none
  | fuel + 1, s =>
    match splitAtFirst close s with
    | none => none
    | some (a, r) =>
      bif a.contains '\n' then none
      else
        bif lit.isPrefixOf r then some (a.length + 1 + lit.length)
        else (lazyCloseThenLitFuel close lit fuel r).map (fun n => a.length + 1 + n)

def lazyCloseThenLit (close : Char) (lit s : List Char) : Option Nat :=
  lazyCloseThenLitFuel close lit (s.length + 1) s

/-- The `\[.*?\]{.*?}\raggedright` part of `_minipage_pattern` after
`\begin{minipage}[`, with lazy backtracking over `]` candidates. -/
def matchMinipageBracketFuel : Nat → List Char → Option Nat
  | 0, _ => none
  | fuel + 1, s =>
    match splitAtFirst ']' s with
    | none => none
    | some (a, r) =>
      bif a.contains '\n' then none
      else
        match
          (match r with
           | c :: r2 =>
             bif c == braceOpen then
               (lazyCloseThenLit braceClose raggedrightTok r2).map
                 (fun n => a.length + 1 + 1 + n)
             else none
           | [] => none)
        with
        | some n => some n
        | none => (matchMinipageBracketFuel fuel r).map (fun n => a.length + 1 + n)

def matchMinipageBracket (s : List Char) : Option Nat :=
  matchMinipageBracketFuel (s.length + 1) s

/-- Matcher for `_minipage_pattern =
`\\begin{minipage}\[.*?\]{.*?}\raggedright|\\end{minipage}`` (no DOTALL),
replacement is the empty string. -/
def matchMinipage (s : List Char) : Option (Nat × List Char) :=
  match
    (bif mpOpen.isPrefixOf s then
      (matchMinipageBracket (s.drop mpOpen.length)).map (fun n => mpOpen.length + n)
    else none)
  with
  | some n => some (n, [])
  | none => bif mpEndTok.isPrefixOf s then some (mpEndTok.length, []) else none

/-- `LatexProcessor._extract_table_content`: search
`_table_content_pattern = `\toprule(.*?)\bottomrule`` (re.DOTALL) in the
matched table, remove minipage wrappers, strip. -/
def extract_table_content (content : List Char) : List Char :=
  match splitAtFirstSub topruleTok content with
  | none => extractFailMsg
  | some (_, r) =>
    match splitAtFirstSub bottomruleTok r with
    | none => extractFailMsg
    | some (mid, _) => pyStrip (subScan matchMinipage mid)

/-- `LatexProcessor._calculate_columns`. -/
def calculate_columns (content : List Char) : Nat :=
  bif containsSub rowEndTok content then
    countOccur (lc "&") content / countOccur rowEndTok content + 1
  else 1

/-- `LatexProcessor._create_adjusted_table`. -/
def create_adjusted_table (content : List Char) (cols_count : Nat) : List Char :=
  atOpen ++ List.replicate cols_count 'l'
    ++ lc "@\x7b\x7d\x7d\n\\toprule\n"
    ++ content
    ++ lc "\n\\bottomrule\n\\end\x7btabular\x7d"

/-- `LatexProcessor._adjust_table_structure` applied to the full match. -/
def adjust_table_structure (g0 : List Char) : List Char :=
  let table_content := extract_table_content g0
  create_adjusted_table table_content (calculate_columns table_content)

/-- Matcher for the pattern of `_adjust_table_format`:
`\\begin{tabular}{@{}\s*>\s*{\\raggedright.*?\\end{tabular}` (re.DOTALL). -/
def matchAdjustTable (s : List Char) : Option (Nat × List Char) :=
  bif atOpen.isPrefixOf s then
    let s1 := s.drop atOpen.length
    let ws1 := s1.takeWhile pyIsSpace
    let s2 := s1.dropWhile pyIsSpace
    match s2 with
    | c :: s3 =>
      bif c == '>' then
        let ws2 := s3.takeWhile pyIsSpace
        let s4 := s3.dropWhile pyIsSpace
        bif raggedOpenTok.isPrefixOf s4 then
          match splitAtFirstSub tabEndTok (s4.drop raggedOpenTok.length) with
          | none => none
          | some (mid, _) =>
            let g0 := atOpen ++ ws1 ++ '>' :: ws2 ++ raggedOpenTok ++ mid ++ tabEndTok
            some (g0.length, adjust_table_structure g0)
        else none
      else none
    | [] => none
  else none

/-- `LatexProcessor._adjust_table_format`. -/
def adjust_table_format (content : List Char) : List Char :=
  subScan matchAdjustTable content

/- ### Rule 8: `LatexProcessor._convert_math_delimiters` -/

def mathOpenTok : List Char := lc "\\("
def mathCloseTok : List Char := lc "\\)"

/-- Matcher for `_math_pattern = `\\\(|\\\)``, replacement `$`. -/
def matchMath (s : List Char) : Option (Nat × List Char) :=
  bif mathOpenTok.isPrefixOf s || mathCloseTok.isPrefixOf s then some (2, ['$'])
  else none

/-- `LatexProcessor._convert_math_delimiters`. -/
def convert_math_delimiters (content : List Char) : List Char :=
  subScan matchMath content

/- ### Rule 9: `LatexProcessor._remove_pandoc_bounded` -/

def pbOpen : List Char := lc "\\pandocbounded\x7b"

/-- Matcher for `_pandoc_pattern = `\\pandocbounded\{(.*?)\}`` (no DOTALL),
replacement `\1`. -/
def matchPandoc (s : List Char) : Option (Nat × List Char) :=
  bif pbOpen.isPrefixOf s then
    match splitAtFirst braceClose (s.drop pbOpen.length) with
    | none => none
    | some (content, _) =>
      bif content.contains '\n' then none
      else some (pbOpen.length + content.length + 1, content)
  else none

/-- `LatexProcessor._remove_pandoc_bounded`. -/
def remove_pandoc_bounded (content : List Char) : List Char :=
  subScan matchPandoc content

/- ### Orchestrator: `_apply_all_transformations`, `_process_single_file`,
`process_files`.  Log lines are modelled by `LogEntry`; a transformation is a
named partial function (`none` models a raised exception, which the
orchestrator catches). -/

inductive LogEntry where
  /-- `logging.info("Verarbeite Dateien in: %s", ...)` -/
  | processDirMsg : LogEntry
  /-- `logging.warning("Keine .tex-Dateien gefunden!")` -/
  | noFilesWarning : LogEntry
  /-- `logging.info("Gefundene .tex-Dateien: %d", len(tex_files))` -/
  | foundCount (n : Nat) : LogEntry
  /-- `logging.info("Verarbeite: %s", file_path)` -/
  | processingFile (name : List Char) : LogEntry
  /-- `logging.error("Fehler bei Transformation %s: %s", ...)` -/
  | transformError (transformName : List Char) : LogEntry
  /-- `logging.info("✓ Erfolgreich verarbeitet: %s", file_path)` -/
  | fileSuccess (name : List Char) : LogEntry
  /-- `logging.error("Fehler bei der Verarbeitung von %s: %s", ...)` -/
  | fileError (name : List Char) : LogEntry
deriving DecidableEq

/-- A transformation step: its `__name__` and its (possibly raising) action. -/
abbrev TransformStep := List Char × (List Char → Option (List Char))

/-- One iteration of the `for transform_func, kwargs in transformations` loop
(the `try`/`except` body): apply the step, or log the error and keep the
previous content. -/
def applyStep (st : List Char × List LogEntry) (tr : TransformStep) :
    List Char × List LogEntry :=
  match tr.2 st.1 with
  | some c2 => (c2, st.2)
  | none => (st.1, st.2 ++ [LogEntry.transformError tr.1])

/-- `LatexProcessor._apply_all_transformations`: fold the transformation list
over the content; a raising transformation (`none`) is logged and its effect
skipped (the content keeps its previous value). -/
def apply_all_transformations (transformations : List TransformStep)
    (content : List Char) : List Char × List LogEntry :=
  transformations.foldl applyStep (content, [])

/-- A file as seen by `_process_single_file`: its name, the result of
`read_text` (`none` models a raised I/O error), and whether the final
`write_text` succeeds (`false` models a raised I/O error on write). -/
abbrev FsFile := List Char × Option (List Char) × Bool

/-- `LatexProcessor._process_single_file`.  The transformation chain is built
from the file's name (the Python list closes over `filename`).  The rule-error
entries of the chain are emitted before the write is attempted; the per-file
success entry is logged only if the read, the chain and the write all complete,
while a raised read or write error is caught and logged as a file error.
Returns the log entries and the content written back (if any). -/
def process_single_file (transformsFor : List Char → List TransformStep)
    (file : FsFile) : List LogEntry × Option (List Char) :=
  match file.2.1 with
  | none => ([LogEntry.processingFile file.1, LogEntry.fileError file.1], none)
  | some content =>
    let r := apply_all_transformations (transformsFor file.1) content
    bif file.2.2 then
      (LogEntry.processingFile file.1 :: r.2 ++ [LogEntry.fileSuccess file.1], some r.1)
    else
      (LogEntry.processingFile file.1 :: r.2 ++ [LogEntry.fileError file.1], none)

/-- `LatexProcessor.process_files` over an abstract directory listing. -/
def process_files (transformsFor : List Char → List TransformStep)
    (files : List FsFile) : List LogEntry :=
  LogEntry.processDirMsg ::
    (bif files.isEmpty then [LogEntry.noFilesWarning]
     else LogEntry.foundCount files.length ::
       files.foldl (fun log f => log ++ (process_single_file transformsFor f).1) [])

/-- The fixed transformation chain of `_apply_all_transformations`, with each
rule total (the embedded rules never raise). -/
def pipeline (ts w h filename : List Char) (labelReps : List (List Char × List Char)) :
    List TransformStep :=
  [(lc "_add_or_replace_comment", fun c => some (add_or_replace_comment ts filename c)),
   (lc "_update_figure_environment", fun c => some (update_figure_environment w h c)),
   (lc "_apply_simple_replacements", fun c => some (apply_simple_replacements c)),
   (lc "_replace_german_chars_in_labels", fun c => some (replace_german_chars_in_labels labelReps c)),
   (lc "_convert_code_blocks", fun c => some (convert_code_blocks c)),
   (lc "_convert_longtable_to_table", fun c => some (convert_longtable_to_table c)),
   (lc "_adjust_table_format", fun c => some (adjust_table_format c)),
   (lc "_convert_math_delimiters", fun c => some (convert_math_delimiters c)),
   (lc "_remove_pandoc_bounded", fun c => some (remove_pandoc_bounded c))]

/-- The handcrafted document of claim C5: exactly one long-table environment
with column specification `ll` and two data rows separated by row-end tokens,
with the usual pandoc long-table header/footer control rows. -/
def c5doc : List Char :=
  lc "pre\n\\begin\x7blongtable\x7d[]\x7b@\x7b\x7dll@\x7b\x7d\x7d\n\\toprule\\noalign\x7b\x7d\n\\noalign\x7b\x7d\n\\endhead\na & b \\\\\nc & d \\\\\n\\bottomrule\\noalign\x7b\x7d\n\\endlastfoot\n\\end\x7blongtable\x7d\npost"

/-- The concrete run of claim C9: three files — one fully processed, one
unreadable, one readable but failing on write — processed with the real
transformation chain (`_apply_all_transformations`'s list built per file name,
as in `_process_single_file`). -/
def c9files : List FsFile :=
  [(lc "a.tex", some (lc "x"), true),
   (lc "b.tex", none, true),
   (lc "c.tex", some (lc "y"), false)]

def c9log : List LogEntry :=
  process_files
    (fun name => pipeline (lc "01-Jan-25") (lc "0.8") (lc "0.6") name label_replacements)
    c9files

/-- The number reported by a log entry, if it reports one. -/
def reportedNat : LogEntry → Option Nat
  | LogEntry.foundCount n => some n
  | _ => none

/-- The number of per-file success entries in a log. -/
def successCountLog (log : List LogEntry) : Nat :=
  log.countP (fun e => match e with | LogEntry.fileSuccess _ => true | _ => false)

/- ### Basic lemmas about the helpers -/

theorem isPrefixOf_append_self (a b : List Char) : a.isPrefixOf (a ++ b) = true := by
  simp

theorem exists_append_of_isPrefixOf {a s : List Char} (h : a.isPrefixOf s = true) :
    ∃ t, a ++ t = s := by
  simpa using h

theorem splitAtFirstSub_eq {pat s b a : List Char}
    (h : splitAtFirstSub pat s = some (b, a)) : s = b ++ pat ++ a := by
  induction s generalizing b a with
  | nil =>
    cases hp : pat.isPrefixOf ([] : List Char) with
    | false => simp [splitAtFirstSub, hp] at h
    | true =>
      obtain ⟨t, ht⟩ := exists_append_of_isPrefixOf hp
      have hpat : pat = [] := by
        cases pat with
        | nil => rfl
        | cons c p => simp at ht
      subst hpat
      simp [splitAtFirstSub] at h
      simp [h.1, h.2]
  | cons c rest ih =>
    cases hp : pat.isPrefixOf (c :: rest) with
    | true =>
      obtain ⟨t, ht⟩ := exists_append_of_isPrefixOf hp
      simp only [splitAtFirstSub, hp, cond_true, Option.some.injEq,
        Prod.mk.injEq] at h
      obtain ⟨rfl, rfl⟩ := h
      rw [← ht]
      simp
    | false =>
      simp only [splitAtFirstSub, hp, cond_false, Option.map_eq_some'] at h
      obtain ⟨⟨b', a'⟩, hb, heq⟩ := h
      simp only [Prod.mk.injEq] at heq
      obtain ⟨h1, h2⟩ := heq
      subst h2
      simp [← h1, ih hb]

theorem splitAtFirstSub_isSome_of_pref {pat s : List Char}
    (h : pat.isPrefixOf s = true) : (splitAtFirstSub pat s).isSome = true := by
  cases s with
  | nil => simp [splitAtFirstSub, h]
  | cons c rest => simp [splitAtFirstSub, h]

theorem containsSub_of_decomp (pat b a : List Char) :
    containsSub pat (b ++ pat ++ a) = true := by
  induction b with
  | nil =>
    refine by simpa [containsSub] using
      splitAtFirstSub_isSome_of_pref (isPrefixOf_append_self pat a)
  | cons c b ih =>
    show (splitAtFirstSub pat (c :: (b ++ pat ++ a))).isSome = true
    cases hp : pat.isPrefixOf (c :: (b ++ pat ++ a)) with
    | true =>
      have hp2 : pat.isPrefixOf (c :: (b ++ (pat ++ a))) = true := by
        simpa [List.append_assoc] using hp
      simp [splitAtFirstSub, hp2]
    | false =>
      have hp2 : pat.isPrefixOf (c :: (b ++ (pat ++ a))) = false := by
        simpa [List.append_assoc] using hp
      rw [List.append_assoc]
      simp only [splitAtFirstSub, hp2, cond_false]
      simpa [containsSub] using ih

theorem containsSub_cons_of {pat x : List Char} {c : Char}
    (h : containsSub pat x = true) : containsSub pat (c :: x) = true := by
  rw [containsSub, Option.isSome_iff_exists] at h
  obtain ⟨⟨b, a⟩, hba⟩ := h
  have hx := splitAtFirstSub_eq hba
  subst hx
  simpa using containsSub_of_decomp pat (c :: b) a

theorem splitAtFirstSub_of_not_contains {pat s : List Char}
    (h : containsSub pat s = false) : splitAtFirstSub pat s = none := by
  cases hs : splitAtFirstSub pat s with
  | none => rfl
  | some p => rw [containsSub, hs] at h; simp at h

/-- `str.replace` is the identity when the pattern does not occur. -/
theorem replaceAll_of_not_contains {pat s : List Char} (repl : List Char)
    (h : containsSub pat s = false) : replaceAll pat repl s = s := by
  rw [replaceAll, replaceAllFuel, splitAtFirstSub_of_not_contains h]

/- ### Fuel irrelevance and unfolding equations for `subScan` -/

theorem subScanFuel_nil (m : List Char → Option (Nat × List Char)) (fuel : Nat) :
    subScanFuel m fuel [] = [] := by
  cases fuel <;> rfl

theorem subScanFuel_congr (m : List Char → Option (Nat × List Char)) :
    ∀ f1 f2 s, s.length ≤ f1 → s.length ≤ f2 →
      subScanFuel m f1 s = subScanFuel m f2 s := by
  intro f1
  induction f1 with
  | zero =>
    intro f2 s h1 _
    have : s = [] := List.length_eq_zero.mp (Nat.le_zero.mp h1)
    subst this
    rw [subScanFuel_nil, subScanFuel_nil]
  | succ g1 ih =>
    intro f2 s h1 h2
    cases s with
    | nil => rw [subScanFuel_nil, subScanFuel_nil]
    | cons c rest =>
      have hlen : rest.length + 1 ≤ f2 := by simpa using h2
      cases f2 with
      | zero => exact absurd hlen (by simp)
      | succ g2 =>
        have hr1 : rest.length ≤ g1 := by simpa using h1
        have hr2 : rest.length ≤ g2 := by simpa using hlen
        simp only [subScanFuel]
        cases hm : m (c :: rest) with
        | none => rw [ih g2 rest hr1 hr2]
        | some p =>
          obtain ⟨n, repl⟩ := p
          by_cases hn : n = 0
          · simp only [hn, if_pos rfl]
            rw [ih g2 rest hr1 hr2]
            simp
          · simp only [if_neg hn]
            have hd : (rest.drop (n - 1)).length ≤ rest.length := by
              simp
            rw [ih g2 (rest.drop (n - 1)) (le_trans hd hr1) (le_trans hd hr2)]

theorem subScan_nil (m : List Char → Option (Nat × List Char)) :
    subScan m [] = [] := rfl

theorem subScan_cons_none {m : List Char → Option (Nat × List Char)}
    {c : Char} {rest : List Char} (h : m (c :: rest) = none) :
    subScan m (c :: rest) = c :: subScan m rest := by
  rw [subScan, subScan]
  have : (c :: rest).length = rest.length + 1 := rfl
  rw [this]
  simp only [subScanFuel, h]

theorem subScan_cons_some {m : List Char → Option (Nat × List Char)}
    {c : Char} {rest : List Char} {n : Nat} {repl : List Char}
    (h : m (c :: rest) = some (n, repl)) (hn : n ≠ 0) :
    subScan m (c :: rest) = repl ++ subScan m (rest.drop (n - 1)) := by
  rw [subScan, subScan]
  have h1 : (c :: rest).length = rest.length + 1 := rfl
  rw [h1]
  simp only [subScanFuel, h, if_neg hn]
  have hd : (rest.drop (n - 1)).length ≤ rest.length := by simp
  rw [subScanFuel_congr m rest.length (rest.drop (n - 1)).length (rest.drop (n - 1)) hd le_rfl]

/-- A `re.sub` sweep is the identity on a document in which the pattern
matches at no position. -/
theorem subScan_id_of_noMatch {m : List Char → Option (Nat × List Char)} :
    ∀ {s : List Char}, noMatchIn m s = true → subScan m s = s := by
  intro s
  induction s with
  | nil => intro _; rfl
  | cons c rest ih =>
    intro h
    rw [noMatchIn] at h
    have htl : (c :: rest).tails = (c :: rest) :: rest.tails := by
      simp
    rw [htl, List.all_cons] at h
    obtain ⟨h1, h2⟩ := by simpa using h
    rw [subScan_cons_none (Option.isNone_iff_eq_none.mp (by simpa using h1))]
    rw [ih (by simpa [noMatchIn, List.all_eq_true] using h2)]

theorem dropLast_append_single (l : List Char) (a : Char) :
    (l ++ [a]).dropLast = l := by
  induction l with
  | nil => rfl
  | cons c l ih => cases l <;> simp_all [List.dropLast]

theorem isPrefixOf_trans_take {a b w : List Char}
    (h : a.isPrefixOf (b ++ w) = true) (hl : a.length ≤ b.length) :
    a = b.take a.length := by
  obtain ⟨u, hu⟩ := exists_append_of_isPrefixOf h
  have h1 : (a ++ u).take a.length = a := List.take_left a u
  rw [hu, List.take_append_of_le_length hl] at h1
  exact h1.symm

theorem subScan_of_match {m : List Char → Option (Nat × List Char)}
    {s : List Char} {n : Nat} {repl : List Char}
    (h : m s = some (n, repl)) (hn : 0 < n) (hs : s ≠ []) :
    subScan m s = repl ++ subScan m (s.drop n) := by
  cases n with
  | zero => exact absurd hn (by simp)
  | succ k =>
    cases s with
    | nil => exact absurd rfl hs
    | cons c rest =>
      rw [subScan_cons_some h (by simp)]
      simp [List.drop_succ_cons]

theorem splitAtFirst_append_not_mem {ch : Char} {a : List Char} (y : List Char)
    (h : a.contains ch = false) : splitAtFirst ch (a ++ ch :: y) = some (a, y) := by
  induction a with
  | nil => simp [splitAtFirst]
  | cons c a ih =>
    simp only [List.contains_cons, Bool.or_eq_false_iff, beq_eq_false_iff_ne] at h
    obtain ⟨hc, ha⟩ := h
    have hc2 : ¬(c = ch) := fun hh => hc hh.symm
    simp [splitAtFirst, hc2, ih ha]

/-- If a pattern `p` with no nontrivial border cannot continue past a text `t`
into the following context `w`, then `p` cannot match at a position strictly
inside `t ++ w` that starts in the (pattern-free) `t`. -/
theorem opening_not_prefix_of_inner {p t w : List Char}
    (ht : t ≠ []) (hx : containsSub p t = false)
    (hw : ∀ k, k < p.length → 0 < k → ((p.drop k).isPrefixOf w) = false)
    (hp : p.isPrefixOf (t ++ w) = true) : False := by
  by_cases hlen : p.length ≤ t.length
  · have hpt : p = t.take p.length := isPrefixOf_trans_take hp hlen
    have htt : t = p ++ t.drop p.length := by
      conv_lhs => rw [← List.take_append_drop p.length t]
      rw [← hpt]
    have : containsSub p t = true := by
      rw [htt]
      simpa using containsSub_of_decomp p [] (t.drop p.length)
    rw [this] at hx
    exact Bool.true_eq_false ▸ hx
  · push_neg at hlen
    obtain ⟨u, hu⟩ := exists_append_of_isPrefixOf hp
    have hdrop : (p ++ u).drop t.length = (t ++ w).drop t.length := by rw [hu]
    rw [List.drop_append_of_le_length (Nat.le_of_lt hlen), List.drop_left] at hdrop
    have hpre : (p.drop t.length).isPrefixOf w = true := by
      rw [← hdrop]
      exact isPrefixOf_append_self _ _
    have hfalse := hw t.length hlen (List.length_pos.mpr ht)
    rw [hfalse] at hpre
    exact Bool.true_eq_false ▸ hpre.symm

/- ### Claim C4 -/

/-- Claim C4 (confirmed): `_calculate_columns` computes the column count of
extracted row content as (number of cell separators) integer-divided by
(number of row-end tokens) plus one, returning 1 when the content has no
row-end token; content with 5 cell separators and 2 row-end tokens yields 3. -/
theorem c4_calculate_columns_spec :
    (∀ content : List Char, containsSub rowEndTok content = false →
      calculate_columns content = 1) ∧
    (∀ content : List Char, containsSub rowEndTok content = true →
      calculate_columns content =
        countOccur (lc "&") content / countOccur rowEndTok content + 1) ∧
    (countOccur (lc "&") (lc "&&&&&\\\\\\\\") = 5 ∧
     countOccur rowEndTok (lc "&&&&&\\\\\\\\") = 2 ∧
     calculate_columns (lc "&&&&&\\\\\\\\") = 3) := by
  refine ⟨?_, ?_, by decide⟩
  · intro content h
    simp [calculate_columns, h]
  · intro content h
    simp [calculate_columns, h]

/-- Witness for C4 at concrete inputs. -/
theorem c4_witness :
    calculate_columns (lc "a & b") = 1 ∧
    calculate_columns (lc "x&y\\\\z") = 2 := by
  constructor
  · exact c4_calculate_columns_spec.1 (lc "a & b") (by decide)
  · rw [c4_calculate_columns_spec.2.1 (lc "x&y\\\\z") (by decide)]
    decide

/- ### Claim C7 -/

/-- Claim C7 (confirmed): `_repl_figure` inserts the fixed default
width/height/keep-aspect-ratio option set when the `includegraphics` has no
options bracket; when an options bracket exists but contains neither a width
key nor a height key, it appends the default set to the existing options
(dropping only the closing bracket, so no existing option is removed); in both
cases the caption/label placeholder comment lines are appended after the image
command. -/
theorem c7_figure_options (w h before inner path : List Char) :
    (repl_figure w h before none path =
      before ++ igTok ++ create_image_options w h ++ path ++ figTail) ∧
    ((create_image_options w h).drop 1 =
      widthKey ++ w ++ lc "\\textwidth,height=" ++ h ++ lc "\\textheight,keepaspectratio]") ∧
    (containsSub widthKey ('[' :: inner ++ [']']) = false →
     containsSub heightKey ('[' :: inner ++ [']']) = false →
     repl_figure w h before (some ('[' :: inner ++ [']'])) path =
       before ++ igTok ++ ('[' :: inner ++ ',' :: (create_image_options w h).drop 1)
         ++ path ++ figTail) := by
  refine ⟨rfl, by simp [create_image_options, widthKey, lc], ?_⟩
  intro h1 h2
  have hdl : ('[' :: inner ++ [']']).dropLast = '[' :: inner :=
    dropLast_append_single ('[' :: inner) ']'
  simp only [repl_figure]
  rw [h1, h2]
  have hdl2 : ('[' :: (inner ++ [']'])).dropLast = '[' :: inner := hdl
  simp [hdl2]

/-- Witness for C7 at a concrete option list. -/
theorem c7_witness :
    repl_figure (lc "0.8") (lc "0.6") (lc "\\begin\x7bfigure\x7d\\centering")
        (some ('[' :: lc "scale=0.5" ++ [']'])) (lc "\x7bimg.png\x7d") =
      lc "\\begin\x7bfigure\x7d\\centering" ++ igTok
        ++ ('[' :: lc "scale=0.5" ++ ',' :: (create_image_options (lc "0.8") (lc "0.6")).drop 1)
        ++ lc "\x7bimg.png\x7d" ++ figTail := by
  exact (c7_figure_options (lc "0.8") (lc "0.6") (lc "\\begin\x7bfigure\x7d\\centering")
    (lc "scale=0.5") (lc "\x7bimg.png\x7d")).2.2 (by decide) (by decide)

/- ### Claim C5 -/

set_option maxRecDepth 100000 in
/-- Claim C5 (confirmed): on a document with exactly one long-table block with
columns `ll` and two data rows, `_convert_longtable_to_table` yields a `table`
environment containing a `tabular` with column spec `@{}ll@{}`, a top rule, the
two data rows verbatim, a bottom rule, and no long-table control tokens
(`\noalign`, `\endhead`, `\endlastfoot`, `longtable`) remain. -/
theorem c5_longtable_roundtrip :
    containsSub (lc "\\begin\x7btable\x7d") (convert_longtable_to_table c5doc) = true ∧
    containsSub (lc "\\begin\x7btabular\x7d\x7b@\x7b\x7dll@\x7b\x7d\x7d")
      (convert_longtable_to_table c5doc) = true ∧
    containsSub (lc "\\toprule") (convert_longtable_to_table c5doc) = true ∧
    containsSub (lc "a & b \\\\") (convert_longtable_to_table c5doc) = true ∧
    containsSub (lc "c & d \\\\") (convert_longtable_to_table c5doc) = true ∧
    containsSub (lc "\\bottomrule") (convert_longtable_to_table c5doc) = true ∧
    containsSub (lc "\\noalign") (convert_longtable_to_table c5doc) = false ∧
    containsSub (lc "\\endhead") (convert_longtable_to_table c5doc) = false ∧
    containsSub (lc "\\endlastfoot") (convert_longtable_to_table c5doc) = false ∧
    containsSub (lc "longtable") (convert_longtable_to_table c5doc) = false := by
  decide

/- ### Claim C1 -/

/-- Counterexample for claim C1 as stated: the timestamp-banner rule applied to
the document `"x"`, which contains no banner line (no instance of the rule's
target pattern), does not return the document unchanged — it prepends a banner. -/
theorem c1_counterexample :
    ((splitlines (lc "x")).all (fun l => !isOldBanner l) = true) ∧
    add_or_replace_comment (lc "01-Jan-25") (lc "f.tex") (lc "x") ≠ lc "x" := by
  exact ⟨by decide, by decide⟩

/-- Claim C1 (amended): every transformation rule of the pipeline other than
the timestamp-banner rule returns the document unchanged when the document
contains no instance of the rule's target pattern (the regex matches at no
position / no literal replacement key occurs); the timestamp-banner rule always
prepends a banner and is excluded. -/
theorem c1_amended_noop_on_absence (w h : List Char)
    (reps : List (List Char × List Char)) (D : List Char) :
    (noMatchIn (matchFigure w h) D = true → update_figure_environment w h D = D) ∧
    (simple_replacements.all (fun pr => !containsSub pr.1 D) = true →
      apply_simple_replacements D = D) ∧
    (noMatchIn (matchLabel reps) D = true → replace_german_chars_in_labels reps D = D) ∧
    (noMatchIn matchCode D = true → convert_code_blocks D = D) ∧
    (noMatchIn matchLongtable D = true → convert_longtable_to_table D = D) ∧
    (noMatchIn matchAdjustTable D = true → adjust_table_format D = D) ∧
    (noMatchIn matchMath D = true → convert_math_delimiters D = D) ∧
    (noMatchIn matchPandoc D = true → remove_pandoc_bounded D = D) := by
  refine ⟨fun hm => subScan_id_of_noMatch hm, ?_,
    fun hm => subScan_id_of_noMatch hm, fun hm => subScan_id_of_noMatch hm,
    fun hm => subScan_id_of_noMatch hm, fun hm => subScan_id_of_noMatch hm,
    fun hm => subScan_id_of_noMatch hm, fun hm => subScan_id_of_noMatch hm⟩
  intro hall
  simp only [simple_replacements, List.all_cons, List.all_nil, Bool.and_eq_true,
    Bool.not_eq_true', and_true] at hall
  obtain ⟨h1, h2, h3, h4, h5⟩ := hall
  simp only [apply_simple_replacements, simple_replacements, List.foldl_cons, List.foldl_nil]
  rw [replaceAll_of_not_contains _ h1, replaceAll_of_not_contains _ h2,
    replaceAll_of_not_contains _ h3, replaceAll_of_not_contains _ h4,
    replaceAll_of_not_contains _ h5]

/-- Witness for the amended C1 at a concrete pattern-free document. -/
theorem c1_amended_witness :
    update_figure_environment (lc "0.8") (lc "0.6") (lc "hello") = lc "hello" ∧
    apply_simple_replacements (lc "hello") = lc "hello" ∧
    replace_german_chars_in_labels label_replacements (lc "hello") = lc "hello" ∧
    convert_code_blocks (lc "hello") = lc "hello" ∧
    convert_longtable_to_table (lc "hello") = lc "hello" ∧
    adjust_table_format (lc "hello") = lc "hello" ∧
    convert_math_delimiters (lc "hello") = lc "hello" ∧
    remove_pandoc_bounded (lc "hello") = lc "hello" := by
  have h := c1_amended_noop_on_absence (lc "0.8") (lc "0.6") label_replacements (lc "hello")
  exact ⟨h.1 (by decide), h.2.1 (by decide), h.2.2.1 (by decide), h.2.2.2.1 (by decide),
    h.2.2.2.2.1 (by decide), h.2.2.2.2.2.1 (by decide), h.2.2.2.2.2.2.1 (by decide),
    h.2.2.2.2.2.2.2 (by decide)⟩

/- ### Claim C2 -/

theorem apply_all_foldl_log (ts : List TransformStep) :
    ∀ (c : List Char) (l : List LogEntry),
      ts.foldl applyStep (c, l) =
        ((apply_all_transformations ts c).1, l ++ (apply_all_transformations ts c).2) := by
  induction ts with
  | nil => intro c l; simp [apply_all_transformations]
  | cons tr ts ih =>
    intro c l
    simp only [List.foldl_cons, apply_all_transformations]
    cases htr : tr.2 c with
    | some c2 =>
      rw [show applyStep (c, l) tr = (c2, l) from by simp [applyStep, htr]]
      rw [show applyStep (c, []) tr = (c2, []) from by simp [applyStep, htr]]
      rw [ih c2 l, ih c2 []]
      simp [apply_all_transformations]
    | none =>
      rw [show applyStep (c, l) tr = (c, l ++ [LogEntry.transformError tr.1]) from by
        simp [applyStep, htr]]
      rw [show applyStep (c, []) tr = (c, [LogEntry.transformError tr.1]) from by
        simp [applyStep, htr]]
      rw [ih c (l ++ [LogEntry.transformError tr.1]), ih c [LogEntry.transformError tr.1]]
      simp [apply_all_transformations]

theorem apply_all_append (ts1 ts2 : List TransformStep) (d : List Char) :
    apply_all_transformations (ts1 ++ ts2) d =
      ((apply_all_transformations ts2 (apply_all_transformations ts1 d).1).1,
       (apply_all_transformations ts1 d).2 ++
         (apply_all_transformations ts2 (apply_all_transformations ts1 d).1).2) := by
  rw [apply_all_transformations, List.foldl_append]
  rw [show (ts1.foldl applyStep (d, [])) = apply_all_transformations ts1 d from rfl]
  rw [show apply_all_transformations ts1 d =
    ((apply_all_transformations ts1 d).1, (apply_all_transformations ts1 d).2) from rfl]
  rw [apply_all_foldl_log ts2 (apply_all_transformations ts1 d).1 (apply_all_transformations ts1 d).2]

theorem apply_all_fst_append (ts1 ts2 : List TransformStep) (d : List Char) :
    (apply_all_transformations (ts1 ++ ts2) d).1 =
      (apply_all_transformations ts2 (apply_all_transformations ts1 d).1).1 := by
  rw [apply_all_append]

theorem apply_all_snd_append (ts1 ts2 : List TransformStep) (d : List Char) :
    (apply_all_transformations (ts1 ++ ts2) d).2 =
      (apply_all_transformations ts1 d).2 ++
        (apply_all_transformations ts2 (apply_all_transformations ts1 d).1).2 := by
  rw [apply_all_append]

/-- Claim C2 (confirmed): in `_apply_all_transformations`, if the
transformation at some position of the chain raises, the content passed to the
next transformation is exactly the content from before the failing step (its
effect is skipped), the failure is logged with the transformation's identity,
and all remaining transformations are still applied. -/
theorem c2_failed_transform_skipped (ts1 ts2 : List TransformStep) (nm : List Char)
    (t : List Char → Option (List Char)) (d : List Char)
    (h : t (apply_all_transformations ts1 d).1 = none) :
    (apply_all_transformations (ts1 ++ (nm, t) :: ts2) d).1 =
      (apply_all_transformations ts2 (apply_all_transformations ts1 d).1).1 ∧
    (apply_all_transformations (ts1 ++ (nm, t) :: ts2) d).2 =
      (apply_all_transformations ts1 d).2 ++ LogEntry.transformError nm ::
        (apply_all_transformations ts2 (apply_all_transformations ts1 d).1).2 := by
  have hsingle : apply_all_transformations [(nm, t)] (apply_all_transformations ts1 d).1 =
      ((apply_all_transformations ts1 d).1, [LogEntry.transformError nm]) := by
    simp only [apply_all_transformations] at h ⊢
    simp [applyStep, h]
  have hsplit : ts1 ++ (nm, t) :: ts2 = (ts1 ++ [(nm, t)]) ++ ts2 := by simp
  have hfst : (apply_all_transformations (ts1 ++ [(nm, t)]) d).1 =
      (apply_all_transformations ts1 d).1 := by
    rw [apply_all_fst_append, hsingle]
  have hsnd : (apply_all_transformations (ts1 ++ [(nm, t)]) d).2 =
      (apply_all_transformations ts1 d).2 ++ [LogEntry.transformError nm] := by
    rw [apply_all_snd_append, hsingle]
  constructor
  · rw [hsplit, apply_all_fst_append, hfst]
  · rw [hsplit, apply_all_snd_append, hfst, hsnd]
    simp

/-- Witness for C2: a concrete three-step chain whose middle step raises. -/
theorem c2_witness :
    ((fun _ => (none : Option (List Char)))
        (apply_all_transformations [(lc "f", fun c => some ('a' :: c))] (lc "x")).1 = none) ∧
    (apply_all_transformations
        ([(lc "f", fun c => some ('a' :: c))] ++ (lc "g", fun _ => none) ::
          [(lc "k", fun c => some (c ++ ['b']))]) (lc "x")).1 =
      (apply_all_transformations [(lc "k", fun c => some (c ++ ['b']))]
        (apply_all_transformations [(lc "f", fun c => some ('a' :: c))] (lc "x")).1).1 := by
  exact ⟨rfl,
    (c2_failed_transform_skipped [(lc "f", fun c => some ('a' :: c))]
      [(lc "k", fun c => some (c ++ ['b']))] (lc "g") (fun _ => none) (lc "x") rfl).1⟩

/- ### Claim C6 -/

theorem math_tok_cases {p : List Char} (hp : p = mathOpenTok ∨ p = mathCloseTok) :
    p.length = 2 := by
  rcases hp with rfl | rfl <;> rfl

/-- A math delimiter cannot match while straddling the boundary between some
text and a following delimiter (both delimiters start with a backslash, and no
delimiter's second character is a backslash). -/
theorem math_no_cross {p d : List Char} (hp : p = mathOpenTok ∨ p = mathCloseTok)
    (hd : d = mathOpenTok ∨ d = mathCloseTok) (z : List Char) :
    ∀ k, k < p.length → 0 < k → (p.drop k).isPrefixOf (d ++ z) = false := by
  intro k hk h0
  have h2 : p.length = 2 := math_tok_cases hp
  have hk1 : k = 1 := by omega
  subst hk1
  rcases hp with rfl | rfl <;> rcases hd with rfl | rfl <;>
    simp [mathOpenTok, mathCloseTok, lc, List.isPrefixOf]

theorem matchMath_none_inner {t w : List Char} (ht : t ≠ [])
    (h1 : containsSub mathOpenTok t = false)
    (h2 : containsSub mathCloseTok t = false)
    (hw : ∀ k, k < 2 → 0 < k →
      (mathOpenTok.drop k).isPrefixOf w = false ∧ (mathCloseTok.drop k).isPrefixOf w = false) :
    matchMath (t ++ w) = none := by
  cases hp1 : mathOpenTok.isPrefixOf (t ++ w) with
  | true =>
    exact absurd hp1 (fun hp1 =>
      opening_not_prefix_of_inner ht h1 (fun k hk hk0 => (hw k hk hk0).1) hp1)
  | false =>
    cases hp2 : mathCloseTok.isPrefixOf (t ++ w) with
    | true =>
      exact absurd hp2 (fun hp2 =>
        opening_not_prefix_of_inner ht h2 (fun k hk hk0 => (hw k hk hk0).2) hp2)
    | false => simp [matchMath, hp1, hp2]

theorem containsSub_cons_false {pat x : List Char} {c : Char}
    (h : containsSub pat (c :: x) = false) : containsSub pat x = false := by
  cases hx : containsSub pat x with
  | false => rfl
  | true => rw [containsSub_cons_of hx] at h; exact h

theorem math_frame_gen {d : List Char} (hd : d = mathOpenTok ∨ d = mathCloseTok) :
    ∀ (x : List Char) {y : List Char},
      containsSub mathOpenTok x = false → containsSub mathCloseTok x = false →
      subScan matchMath (x ++ (d ++ y)) = x ++ '$' :: subScan matchMath y := by
  intro x
  induction x with
  | nil =>
    intro y _ _
    have hmatch : matchMath (d ++ y) = some (2, ['$']) := by
      rcases hd with rfl | rfl
      · simp [matchMath, isPrefixOf_append_self]
      · simp [matchMath, isPrefixOf_append_self]
    have hdrop : (d ++ y).drop 2 = y := by
      rcases hd with rfl | rfl <;> rfl
    simp only [List.nil_append]
    rw [subScan_of_match hmatch (by omega) (by rcases hd with rfl | rfl <;> simp [mathOpenTok, mathCloseTok, lc])]
    rw [hdrop]
    rfl
  | cons c x' ih =>
    intro y hx1 hx2
    have hnone : matchMath ((c :: x') ++ (d ++ y)) = none := by
      refine matchMath_none_inner (by simp) hx1 hx2 ?_
      intro k hk hk0
      exact ⟨math_no_cross (Or.inl rfl) hd y k (by rw [math_tok_cases (Or.inl rfl)]; omega) hk0,
        math_no_cross (Or.inr rfl) hd y k (by rw [math_tok_cases (Or.inr rfl)]; omega) hk0⟩
    rw [List.cons_append, subScan_cons_none (by simpa using hnone)]
    rw [ih (containsSub_cons_false hx1) (containsSub_cons_false hx2)]
    rfl

/-- Claim C6 (confirmed): `_convert_math_delimiters` replaces each occurrence
of the inline-math open escape `\(` and close escape `\)` with a single `$`,
independently, leaving all surrounding content byte-for-byte unchanged;
concretely `\(x+y\)` converts to `$x+y$`. -/
theorem c6_math_delimiters :
    (∀ (x y : List Char),
      containsSub mathOpenTok x = false → containsSub mathCloseTok x = false →
      convert_math_delimiters (x ++ mathOpenTok ++ y)
          = x ++ '$' :: convert_math_delimiters y ∧
      convert_math_delimiters (x ++ mathCloseTok ++ y)
          = x ++ '$' :: convert_math_delimiters y) ∧
    convert_math_delimiters (lc "\\(x+y\\)") = lc "$x+y$" := by
  constructor
  · intro x y h1 h2
    constructor
    · rw [convert_math_delimiters, List.append_assoc]
      exact math_frame_gen (Or.inl rfl) x h1 h2
    · rw [convert_math_delimiters, List.append_assoc]
      exact math_frame_gen (Or.inr rfl) x h1 h2
  · decide

/-- Witness for C6 at concrete surroundings. -/
theorem c6_witness :
    convert_math_delimiters (lc "ab" ++ mathOpenTok ++ lc "cd")
      = lc "ab" ++ '$' :: convert_math_delimiters (lc "cd") := by
  exact ((c6_math_delimiters.1 (lc "ab") (lc "cd") (by decide) (by decide)).1)

/- ### Claim C8 -/

theorem label_no_border :
    ∀ k, k < labelOpen.length → 0 < k →
      labelOpen.drop k ≠ labelOpen.take (labelOpen.length - k) := by
  decide

theorem matchLabel_none_inner {reps : List (List Char × List Char)}
    {t z : List Char} (ht : t ≠ []) (hx : containsSub labelOpen t = false) :
    matchLabel reps (t ++ (labelOpen ++ z)) = none := by
  cases hp : labelOpen.isPrefixOf (t ++ (labelOpen ++ z)) with
  | false => simp [matchLabel, hp]
  | true =>
    refine absurd hp (fun hp => opening_not_prefix_of_inner ht hx ?_ hp)
    intro k hk h0
    cases hpk : (labelOpen.drop k).isPrefixOf (labelOpen ++ z) with
    | false => rfl
    | true =>
      exfalso
      have hlen : (labelOpen.drop k).length ≤ labelOpen.length := by simp
      have hb := isPrefixOf_trans_take hpk hlen
      rw [List.length_drop] at hb
      exact label_no_border k hk h0 hb

theorem label_frame_gen :
    ∀ (x : List Char) {cnt y : List Char},
      containsSub labelOpen x = false → cnt.contains braceClose = false →
      subScan (matchLabel label_replacements)
          (x ++ (labelOpen ++ (cnt ++ braceClose :: y)))
        = x ++ (labelOpen ++ (applyLabelReplacements label_replacements cnt
            ++ braceClose :: subScan (matchLabel label_replacements) y)) := by
  intro x
  induction x with
  | nil =>
    intro cnt y _ hcnt
    have hpre : labelOpen.isPrefixOf (labelOpen ++ (cnt ++ braceClose :: y)) = true :=
      isPrefixOf_append_self _ _
    have hmatch : matchLabel label_replacements (labelOpen ++ (cnt ++ braceClose :: y)) =
        some (labelOpen.length + cnt.length + 1,
          labelOpen ++ applyLabelReplacements label_replacements cnt ++ [braceClose]) := by
      simp only [matchLabel, hpre, cond_true, List.drop_left]
      rw [splitAtFirst_append_not_mem y hcnt]
    have hdrop : (labelOpen ++ (cnt ++ braceClose :: y)).drop
        (labelOpen.length + cnt.length + 1) = y := by
      rw [show labelOpen ++ (cnt ++ braceClose :: y)
          = (labelOpen ++ cnt ++ [braceClose]) ++ y by simp]
      rw [show labelOpen.length + cnt.length + 1
          = (labelOpen ++ cnt ++ [braceClose]).length by simp; omega]
      exact List.drop_left _ _
    simp only [List.nil_append]
    rw [subScan_of_match hmatch (by omega) (by simp [labelOpen, lc])]
    rw [hdrop]
    simp
  | cons c x' ih =>
    intro cnt y hx hcnt
    have hnone : matchLabel label_replacements
        ((c :: x') ++ (labelOpen ++ (cnt ++ braceClose :: y))) = none :=
      matchLabel_none_inner (by simp) hx
    rw [List.cons_append, subScan_cons_none (by simpa using hnone)]
    rw [ih (containsSub_cons_false hx) hcnt]
    rfl

/-- Claim C8 (confirmed): `_replace_german_chars_in_labels` modifies only the
text inside the argument of `\label{...}` constructs, applying the fixed
encoded-character replacement table there, and leaves every character outside
label constructs unchanged; concretely `Kapitel uxfcber Motoren` becomes
`Kapitel ueber Motoren`. -/
theorem c8_label_frame :
    (∀ (x cnt y : List Char),
      containsSub labelOpen x = false → cnt.contains braceClose = false →
      replace_german_chars_in_labels label_replacements
          (x ++ labelOpen ++ cnt ++ braceClose :: y)
        = x ++ labelOpen ++ applyLabelReplacements label_replacements cnt
            ++ braceClose :: replace_german_chars_in_labels label_replacements y) ∧
    applyLabelReplacements label_replacements (lc "Kapitel uxfcber Motoren")
      = lc "Kapitel ueber Motoren" := by
  constructor
  · intro x cnt y hx hcnt
    have h := label_frame_gen x hx hcnt (y := y)
    simp only [replace_german_chars_in_labels]
    simpa [List.append_assoc] using h
  · decide

/-- Witness for C8 at the concrete label content of the spec. -/
theorem c8_witness :
    replace_german_chars_in_labels label_replacements
        (lc "T " ++ labelOpen ++ lc "Kapitel uxfcber Motoren" ++ braceClose :: lc " E")
      = lc "T " ++ labelOpen
          ++ applyLabelReplacements label_replacements (lc "Kapitel uxfcber Motoren")
          ++ braceClose :: replace_german_chars_in_labels label_replacements (lc " E") := by
  exact (c8_label_frame.1 (lc "T ") (lc "Kapitel uxfcber Motoren") (lc " E")
    (by decide) (by decide))

/- ### Lemmas about `splitlines`, `joinLines` and `pyStrip` (rules C3/C10) -/

theorem splitlines_two_nobreak {c : Char} (c2 : Char) (rest : List Char)
    (hb : isLineBreakChar c = false) :
    splitlines (c :: c2 :: rest) =
      match splitlines (c2 :: rest) with
      | [] => [[c]]
      | l :: ls => (c :: l) :: ls := by
  have hc : c ≠ '\r' := by
    intro h; subst h; simp [isLineBreakChar] at hb
  have hcr : (c == '\r' && c2 == '\n') = false := by
    simp [beq_eq_false_iff_ne, hc]
  simp only [splitlines, hcr, hb, cond_false]

theorem splitlines_cons_nobreak {c : Char} {s : List Char} (hs : s ≠ [])
    (hb : isLineBreakChar c = false) :
    splitlines (c :: s) =
      match splitlines s with
      | [] => [[c]]
      | l :: ls => (c :: l) :: ls := by
  cases s with
  | nil => exact absurd rfl hs
  | cons c2 rest => exact splitlines_two_nobreak c2 rest hb

theorem splitlines_newline_cons (t : List Char) :
    splitlines ('\n' :: t) = [] :: splitlines t := by
  cases t with
  | nil => decide
  | cons c2 rest => simp [splitlines, isLineBreakChar]

theorem splitlines_append_newline {l : List Char} (t : List Char)
    (hl : l.all (fun c => !isLineBreakChar c) = true) :
    splitlines (l ++ '\n' :: t) = l :: splitlines t := by
  induction l with
  | nil => simpa using splitlines_newline_cons t
  | cons c l' ih =>
    have hc : isLineBreakChar c = false := by
      have := List.all_eq_true.mp hl c (by simp)
      simpa using this
    have hl2 : l'.all (fun c => !isLineBreakChar c) = true := by
      rw [List.all_eq_true]
      intro x hx
      exact List.all_eq_true.mp hl x (by simp [hx])
    rw [List.cons_append, splitlines_cons_nobreak (by simp) hc, ih hl2]

theorem splitlines_all_nobreak {l : List Char} (hne : l ≠ [])
    (hl : l.all (fun c => !isLineBreakChar c) = true) : splitlines l = [l] := by
  induction l with
  | nil => exact absurd rfl hne
  | cons c l' ih =>
    simp only [List.all_cons, Bool.and_eq_true, Bool.not_eq_true'] at hl
    obtain ⟨hc, hl'⟩ := hl
    cases l' with
    | nil => simp [splitlines, hc]
    | cons c2 rest =>
      rw [splitlines_cons_nobreak (by simp) hc,
        ih (by simp) (by simpa [Bool.not_eq_true'] using hl')]

theorem splitlines_lines_nobreak :
    ∀ (n : Nat) (s : List Char), s.length ≤ n →
      ∀ l ∈ splitlines s, l.all (fun c => !isLineBreakChar c) = true := by
  intro n
  induction n with
  | zero =>
    intro s hs
    have hnil : s = [] := by cases s with | nil => rfl | cons c r => simp at hs
    subst hnil
    simp [splitlines]
  | succ n ih =>
    intro s hs
    match s with
    | [] => simp [splitlines]
    | [c] =>
      cases hb : isLineBreakChar c with
      | true => simp [splitlines, hb]
      | false => simp [splitlines, hb]
    | c :: c2 :: rest =>
      cases hcr : (c == '\r' && c2 == '\n') with
      | true =>
        rw [show splitlines (c :: c2 :: rest) = [] :: splitlines rest from by
          simp [splitlines, hcr]]
        intro l hl
        rcases List.mem_cons.mp hl with rfl | hl
        · simp
        · exact ih rest (by simp at hs ⊢; omega) l hl
      | false =>
        cases hb : isLineBreakChar c with
        | true =>
          rw [show splitlines (c :: c2 :: rest) = [] :: splitlines (c2 :: rest) from by
            simp [splitlines, hcr, hb]]
          intro l hl
          rcases List.mem_cons.mp hl with rfl | hl
          · simp
          · exact ih (c2 :: rest) (by simp at hs ⊢; omega) l hl
        | false =>
          rw [splitlines_two_nobreak c2 rest hb]
          have ihs := ih (c2 :: rest) (by simp at hs ⊢; omega)
          cases hsp : splitlines (c2 :: rest) with
          | nil =>
            simp only [hsp]
            intro l hl
            rcases List.mem_cons.mp hl with rfl | hl
            · simp [hb]
            · simp at hl
          | cons l0 ls =>
            simp only [hsp]
            intro l hl
            rcases List.mem_cons.mp hl with rfl | hl
            · have h0 := ihs l0 (by rw [hsp]; exact List.mem_cons_self _ _)
              simp [List.all_cons, hb]
              simpa [Bool.not_eq_true'] using h0
            · exact ihs l (by rw [hsp]; exact List.mem_cons_of_mem _ hl)

theorem splitlines_lines_nobreak' (s : List Char) :
    ∀ l ∈ splitlines s, l.all (fun c => !isLineBreakChar c) = true :=
  splitlines_lines_nobreak s.length s le_rfl

theorem countP_splitlines_join (p : List Char → Bool) (hp : p [] = false) :
    ∀ (L : List (List Char)),
      (∀ l ∈ L, l.all (fun c => !isLineBreakChar c) = true) →
      (splitlines (joinLines L)).countP p = L.countP p := by
  intro L
  induction L with
  | nil => intro _; simp [joinLines, splitlines]
  | cons l L' ih =>
    intro hall
    cases L' with
    | nil =>
      by_cases hl : l = []
      · subst hl
        simp [joinLines, splitlines, List.countP_cons, hp]
      · rw [show joinLines [l] = l from rfl,
          splitlines_all_nobreak hl (hall l (by simp))]
    | cons l2 L'' =>
      rw [show joinLines (l :: l2 :: L'') = l ++ '\n' :: joinLines (l2 :: L'') from rfl]
      rw [splitlines_append_newline _ (hall l (by simp))]
      rw [List.countP_cons, List.countP_cons]
      rw [ih (fun x hx => hall x (List.mem_cons_of_mem _ hx))]

theorem makeBanner_all_nobreak {ts fn : List Char}
    (hts : ts.all (fun c => !isLineBreakChar c) = true)
    (hfn : fn.all (fun c => !isLineBreakChar c) = true) :
    (makeBanner ts fn).all (fun c => !isLineBreakChar c) = true := by
  have h1 : (lc "% ju ").all (fun c => !isLineBreakChar c) = true := by decide
  have h2 : (!isLineBreakChar ' ') = true := by decide
  simp [makeBanner, List.all_append, h1, h2, hts, hfn]

theorem banner_pref (ts fn : List Char) :
    bannerMarker.isPrefixOf (makeBanner ts fn) = true := by
  have hsplit : lc "% ju " = bannerMarker ++ [' '] := by decide
  rw [makeBanner, hsplit]
  simp only [List.append_assoc]
  exact isPrefixOf_append_self _ _

theorem dropWhile_append_cases (p : Char → Bool) (x y : List Char) :
    (x ++ y).dropWhile p = x.dropWhile p ++ y ∨
    (x.dropWhile p = [] ∧ (x ++ y).dropWhile p = y.dropWhile p) := by
  induction x with
  | nil => right; exact ⟨rfl, rfl⟩
  | cons c x ih =>
    cases hc : p c with
    | true => simpa [List.dropWhile_cons, hc] using ih
    | false => left; simp [List.dropWhile_cons, hc]

theorem bannerMarker_pref_rstrip (r : List Char) :
    bannerMarker.isPrefixOf (pyRstrip (bannerMarker ++ r)) = true := by
  rw [pyRstrip, List.reverse_append]
  rcases dropWhile_append_cases pyIsSpace r.reverse bannerMarker.reverse with h | ⟨_, h⟩
  · rw [h, List.reverse_append, List.reverse_reverse]
    exact isPrefixOf_append_self _ _
  · rw [h, show bannerMarker.reverse.dropWhile pyIsSpace = bannerMarker.reverse from by decide,
      List.reverse_reverse]
    have h0 := isPrefixOf_append_self bannerMarker []
    rw [List.append_nil] at h0
    exact h0

theorem bannerMarker_pref_strip {l : List Char}
    (h : bannerMarker.isPrefixOf l = true) :
    bannerMarker.isPrefixOf (pyStrip l) = true := by
  obtain ⟨r, hr⟩ := exists_append_of_isPrefixOf h
  subst hr
  rw [pyStrip]
  have hl : pyLstrip (bannerMarker ++ r) = bannerMarker ++ r := by
    have hshape : bannerMarker ++ r = '%' :: (lc " ju" ++ r) := rfl
    rw [pyLstrip, hshape, List.dropWhile_cons,
      show pyIsSpace '%' = false from by decide]
    simp
  rw [hl]
  exact bannerMarker_pref_rstrip r

/-- After one application of the timestamp-banner rule, a document has exactly
one line beginning with the banner marker, whatever the input was. -/
theorem countBanner_rule (ts fn X : List Char)
    (hts : ts.all (fun c => !isLineBreakChar c) = true)
    (hfn : fn.all (fun c => !isLineBreakChar c) = true) :
    countBannerLines (add_or_replace_comment ts fn X) = 1 := by
  rw [countBannerLines, add_or_replace_comment]
  have hall : ∀ l ∈ makeBanner ts fn :: (splitlines X).filter (fun l => !isOldBanner l),
      l.all (fun c => !isLineBreakChar c) = true := by
    intro l hl
    rcases List.mem_cons.mp hl with rfl | hl
    · exact makeBanner_all_nobreak hts hfn
    · exact splitlines_lines_nobreak' X l (List.mem_of_mem_filter hl)
  rw [countP_splitlines_join _ (by decide) _ hall]
  rw [List.countP_cons]
  have hfilter : ((splitlines X).filter (fun l => !isOldBanner l)).countP
      (fun l => bannerMarker.isPrefixOf l) = 0 := by
    rw [List.countP_eq_zero]
    intro l hl
    have hmem := List.mem_filter.mp hl
    have hno : isOldBanner l = false := by simpa using hmem.2
    intro hpl
    have hstr := bannerMarker_pref_strip hpl
    rw [isOldBanner] at hno
    rw [hstr] at hno
    exact absurd hno (by simp)
  rw [hfilter, banner_pref ts fn]
  simp

/- ### Claim C3 -/

/-- Claim C3 (confirmed): the timestamp-banner rule is idempotent in its banner
count — applying `_add_or_replace_comment` twice yields a document with exactly
one line beginning with the fixed `% ju` marker prefix (the rule removes every
existing banner line and prepends exactly one fresh banner), provided the
timestamp and filename contain no line-break characters. -/
theorem c3_banner_idempotent_count (ts fn d : List Char)
    (hts : ts.all (fun c => !isLineBreakChar c) = true)
    (hfn : fn.all (fun c => !isLineBreakChar c) = true) :
    countBannerLines (add_or_replace_comment ts fn (add_or_replace_comment ts fn d)) = 1 :=
  countBanner_rule ts fn _ hts hfn

/-- Witness for C3 at a concrete timestamp, filename and document. -/
theorem c3_witness :
    countBannerLines (add_or_replace_comment (lc "01-Jan-25") (lc "f.tex")
      (add_or_replace_comment (lc "01-Jan-25") (lc "f.tex")
        (lc "hello\n% ju old f.tex\nworld"))) = 1 :=
  c3_banner_idempotent_count (lc "01-Jan-25") (lc "f.tex")
    (lc "hello\n% ju old f.tex\nworld") (by decide) (by decide)

/- ### Claim C10 -/

theorem mem_joinLines {c : Char} :
    ∀ {L : List (List Char)}, c ∈ joinLines L → c = '\n' ∨ ∃ l ∈ L, c ∈ l := by
  intro L
  induction L with
  | nil => intro h; simp [joinLines] at h
  | cons l L' ih =>
    cases L' with
    | nil =>
      intro h
      right
      exact ⟨l, by simp, by simpa [joinLines] using h⟩
    | cons l2 L'' =>
      intro h
      rw [show joinLines (l :: l2 :: L'') = l ++ '\n' :: joinLines (l2 :: L'') from rfl] at h
      rcases List.mem_append.mp h with h | h
      · right; exact ⟨l, by simp, h⟩
      · rcases List.mem_cons.mp h with rfl | h
        · left; rfl
        · rcases ih h with h | ⟨l', hl', hc⟩
          · left; exact h
          · right; exact ⟨l', List.mem_cons_of_mem _ hl', hc⟩

theorem head?_append_left {α : Type} {a : List α} (b : List α) (ha : a ≠ []) :
    (a ++ b).head? = a.head? := by
  cases a with
  | nil => exact absurd rfl ha
  | cons c cs => rfl

theorem joinLines_eq_nil : ∀ {L : List (List Char)}, joinLines L = [] → L = [] ∨ L = [[]] := by
  intro L h
  match L with
  | [] => left; rfl
  | [l] =>
    right
    rw [show joinLines [l] = l from rfl] at h
    rw [h]
  | l :: l2 :: L'' =>
    rw [show joinLines (l :: l2 :: L'') = l ++ '\n' :: joinLines (l2 :: L'') from rfl] at h
    simp at h

theorem joinLines_lastChar :
    ∀ (L : List (List Char)),
      (∀ l ∈ L, l.all (fun c => !isLineBreakChar c) = true) → L ≠ [] →
      (∀ l, L.reverse.head? = some l → l ≠ []) →
      lastChar (joinLines L) ≠ some '\n' := by
  intro L
  induction L with
  | nil => intro _ h _; exact absurd rfl h
  | cons l L' ih =>
    intro hall _ hlast
    cases L' with
    | nil =>
      have hl : l ≠ [] := hlast l (by simp)
      rw [show joinLines [l] = l from rfl, lastChar]
      cases hrev : l.reverse with
      | nil => simp
      | cons c cs =>
        have hc : c ∈ l := by
          have : c ∈ l.reverse := by rw [hrev]; exact List.mem_cons_self _ _
          simpa using this
        have hnb := (List.all_eq_true.mp (hall l (by simp))) c hc
        simp only [List.head?_cons]
        intro heq
        have hcn : c = '\n' := by simpa using heq
        subst hcn
        simp [isLineBreakChar] at hnb
    | cons l2 L'' =>
      have hlast' : ∀ l', (l2 :: L'').reverse.head? = some l' → l' ≠ [] := by
        intro l' h
        apply hlast
        rw [List.reverse_cons, head?_append_left _ (by simp)]
        exact h
      have hJ : joinLines (l2 :: L'') ≠ [] := by
        intro h
        rcases joinLines_eq_nil h with h2 | h2
        · simp at h2
        · injection h2 with ha hb
          subst hb
          exact hlast' l2 (by simp) ha
      rw [show joinLines (l :: l2 :: L'') = l ++ '\n' :: joinLines (l2 :: L'') from rfl,
        lastChar, List.reverse_append, List.reverse_cons]
      have hJr : (joinLines (l2 :: L'')).reverse ≠ [] := by
        simpa using hJ
      rw [List.append_assoc, head?_append_left _ hJr]
      have := ih (fun x hx => hall x (List.mem_cons_of_mem _ hx)) (by simp) hlast'
      rw [lastChar] at this
      exact this

/-- Counterexample for claim C10 as stated: on input `"a\n\n"` (which ends with
a blank line) the banner rule's output ends with a newline character. -/
theorem c10_counterexample :
    lastChar (add_or_replace_comment (lc "01-Jan-25") (lc "f.tex") (lc "a\n\n"))
      = some '\n' := by
  decide

/-- Claim C10 (amended): for every input, the banner rule's output contains no
carriage-return character (the rule splits on all line breaks and rejoins with
a single line feed); the output does not end with a newline provided the last
kept line (after banner-line removal) is nonempty — an input whose final kept
line is empty (e.g. ending in a blank line) yields an output ending in a
newline, as the counterexample shows. -/
theorem c10_amended (ts fn d : List Char)
    (hts : ts.all (fun c => !isLineBreakChar c) = true)
    (hfn : fn.all (fun c => !isLineBreakChar c) = true) :
    (∀ c ∈ add_or_replace_comment ts fn d, c ≠ '\r') ∧
    ((∀ l, ((splitlines d).filter (fun l => !isOldBanner l)).reverse.head? = some l →
        l ≠ []) →
      lastChar (add_or_replace_comment ts fn d) ≠ some '\n') := by
  have hall : ∀ l ∈ makeBanner ts fn :: (splitlines d).filter (fun l => !isOldBanner l),
      l.all (fun c => !isLineBreakChar c) = true := by
    intro l hl
    rcases List.mem_cons.mp hl with rfl | hl
    · exact makeBanner_all_nobreak hts hfn
    · exact splitlines_lines_nobreak' d l (List.mem_of_mem_filter hl)
  constructor
  · intro c hc
    rw [add_or_replace_comment] at hc
    rcases mem_joinLines hc with rfl | ⟨l, hl, hcl⟩
    · decide
    · have hnb := (List.all_eq_true.mp (hall l hl)) c hcl
      intro heq
      subst heq
      simp [isLineBreakChar] at hnb
  · intro hlastfilter
    rw [add_or_replace_comment]
    refine joinLines_lastChar _ hall (by simp) ?_
    intro l hl
    cases hf : (splitlines d).filter (fun l => !isOldBanner l) with
    | nil =>
      rw [hf] at hl
      have hlb : l = makeBanner ts fn := by simpa using hl.symm
      subst hlb
      rw [show makeBanner ts fn = '%' :: (lc " ju " ++ ts ++ ' ' :: fn) from rfl]
      simp
    | cons f fs =>
      rw [hf] at hl
      rw [List.reverse_cons, head?_append_left _ (by simp)] at hl
      refine hlastfilter l ?_
      rw [hf]
      exact hl

/-- Witness for the amended C10 at a concrete input with a single trailing
newline (CRLF input also covered by the first conjunct). -/
theorem c10_witness :
    (∀ c ∈ add_or_replace_comment (lc "01-Jan-25") (lc "f.tex") (lc "a\r\nb\n"), c ≠ '\r') ∧
    lastChar (add_or_replace_comment (lc "01-Jan-25") (lc "f.tex") (lc "a\r\nb\n"))
      ≠ some '\n' := by
  have h := c10_amended (lc "01-Jan-25") (lc "f.tex") (lc "a\r\nb\n") (by decide) (by decide)
  exact ⟨h.1, h.2 (by decide)⟩

/- ### Claim C9 -/

theorem mem_foldl_log {g : FsFile → List LogEntry} :
    ∀ (files : List FsFile) (init : List LogEntry) {e : LogEntry},
      (e ∈ init ∨ ∃ f ∈ files, e ∈ g f) →
      e ∈ files.foldl (fun log f => log ++ g f) init := by
  intro files
  induction files with
  | nil =>
    intro init e h
    rcases h with h | ⟨f, hf, _⟩
    · exact h
    · simp at hf
  | cons f files ih =>
    intro init e h
    rw [List.foldl_cons]
    apply ih
    rcases h with h | ⟨f', hf', he⟩
    · left; exact List.mem_append.mpr (Or.inl h)
    · rcases List.mem_cons.mp hf' with rfl | hf'
      · left; exact List.mem_append.mpr (Or.inr he)
      · right; exact ⟨f', hf', he⟩

/-- Counterexample for claim C9 as stated: in the concrete run `c9log` (three
files found, one fully processed, one failing on read, one failing on write),
the number of successfully processed files is 1, and no log entry reports that
number — the only count the code logs is the number of files found, before any
processing.  No summary of attempted versus successfully transformed files is
produced. -/
theorem c9_counterexample :
    LogEntry.foundCount 3 ∈ c9log ∧
    successCountLog c9log = 1 ∧
    (∀ e ∈ c9log, reportedNat e ≠ some (successCountLog c9log)) := by
  exact ⟨by decide, by decide, by decide⟩

/-- Claim C9 (amended): a run over a non-empty directory always logs the count
of files found (the files attempted) before processing, and one per-file
outcome entry: a success entry for every file whose read and write both
succeed — even when individual transformation rules fail on it, since rule
failures are caught inside the chain — and an error entry for every file whose
read or write raises; the success count is thus derivable from the log, but no
aggregate success count is logged. -/
theorem c9_amended_logging (transformsFor : List Char → List TransformStep)
    (files : List FsFile) (hne : files ≠ []) :
    LogEntry.foundCount files.length ∈ process_files transformsFor files ∧
    (∀ f ∈ files, ∀ c, f.2.1 = some c → f.2.2 = true →
      LogEntry.fileSuccess f.1 ∈ process_files transformsFor files) ∧
    (∀ f ∈ files, (f.2.1 = none ∨ f.2.2 = false) →
      LogEntry.fileError f.1 ∈ process_files transformsFor files) := by
  have hempty : files.isEmpty = false := by
    cases files with
    | nil => exact absurd rfl hne
    | cons a l => rfl
  unfold process_files
  rw [hempty]
  simp only [cond_false]
  refine ⟨List.mem_cons_of_mem _ (List.mem_cons_self _ _), ?_, ?_⟩
  · intro f hf c hc hw
    apply List.mem_cons_of_mem
    apply List.mem_cons_of_mem
    apply mem_foldl_log files []
    right
    refine ⟨f, hf, ?_⟩
    have hsingle : (process_single_file transformsFor f).1
        = LogEntry.processingFile f.1 ::
            (apply_all_transformations (transformsFor f.1) c).2
              ++ [LogEntry.fileSuccess f.1] := by
      simp [process_single_file, hc, hw]
    rw [hsingle]
    simp
  · intro f hf hfail
    apply List.mem_cons_of_mem
    apply List.mem_cons_of_mem
    apply mem_foldl_log files []
    right
    refine ⟨f, hf, ?_⟩
    rcases hfail with hread | hwrite
    · have hsingle : (process_single_file transformsFor f).1
          = [LogEntry.processingFile f.1, LogEntry.fileError f.1] := by
        simp [process_single_file, hread]
      rw [hsingle]
      simp
    · cases hc : f.2.1 with
      | none =>
        have hsingle : (process_single_file transformsFor f).1
            = [LogEntry.processingFile f.1, LogEntry.fileError f.1] := by
          simp [process_single_file, hc]
        rw [hsingle]
        simp
      | some c =>
        have hsingle : (process_single_file transformsFor f).1
            = LogEntry.processingFile f.1 ::
                (apply_all_transformations (transformsFor f.1) c).2
                  ++ [LogEntry.fileError f.1] := by
          simp [process_single_file, hc, hwrite]
        rw [hsingle]
        simp

/-- Witness for the amended C9 at a concrete run with one fully processed file
and one file whose write fails. -/
theorem c9_witness :
    LogEntry.foundCount 2 ∈ process_files
      (fun name => pipeline (lc "01-Jan-25") (lc "0.8") (lc "0.6") name label_replacements)
      [(lc "a.tex", some (lc "x"), true), (lc "c.tex", some (lc "y"), false)] ∧
    LogEntry.fileSuccess (lc "a.tex") ∈ process_files
      (fun name => pipeline (lc "01-Jan-25") (lc "0.8") (lc "0.6") name label_replacements)
      [(lc "a.tex", some (lc "x"), true), (lc "c.tex", some (lc "y"), false)] ∧
    LogEntry.fileError (lc "c.tex") ∈ process_files
      (fun name => pipeline (lc "01-Jan-25") (lc "0.8") (lc "0.6") name label_replacements)
      [(lc "a.tex", some (lc "x"), true), (lc "c.tex", some (lc "y"), false)] := by
  have h := c9_amended_logging
    (fun name => pipeline (lc "01-Jan-25") (lc "0.8") (lc "0.6") name label_replacements)
    [(lc "a.tex", some (lc "x"), true), (lc "c.tex", some (lc "y"), false)] (by simp)
  exact ⟨by simpa using h.1,
    h.2.1 (lc "a.tex", some (lc "x"), true) (by simp) (lc "x") rfl rfl,
    h.2.2 (lc "c.tex", some (lc "y"), false) (by simp) (Or.inr rfl)⟩

end SE
